import Mathlib

/-!
Verification development for the chunk-aware, scale-decoding, multi-dimensional
slicing engine of `rex/resource.py` (classes `ResourceDataset` and
`BaseResource`).

The embedding models array element values as rationals (`ℚ`): the engine's
scale/offset arithmetic (`_unscale_data`) is linear arithmetic over values read
from the store, and the claims under study are exact at the inputs they name,
so `ℚ` serves as the idealisation of the float32 arithmetic numpy performs.
Dtypes are tracked separately by the `Dtype` tag carried alongside values,
mirroring the `dtype=` of the numpy buffers and the `astype` calls in the
source.  Machine-level float rounding is not modelled.

Axis indices are natural numbers (the claims only exercise non-negative
indices).  A slice-specification entry (`ds_slice` component in the source) is
one of: integer index, Python slice, explicit index list, or boolean mask,
exactly the four shapes `ResourceDataset` distinguishes with `isinstance`
checks.
-/

namespace Rex

/-- Numpy dtype tags, as far as the engine distinguishes them: the native
dtype of a dataset is whatever `self.ds.dtype` reports, and the only
conversion the engine itself performs is `astype('float32')`. -/
inductive Dtype where
  | int8 | int16 | int32 | uint16 | uint32 | float32 | float64
deriving DecidableEq

/-- One per-axis entry of a `ds_slice` tuple: `int`, `slice`, list of indices
(`list`/integer `ndarray`), or boolean mask (`ndarray` of bools).  Python
slices carry optional start/stop/step. -/
inductive Ax where
  | ixInt (i : Nat)
  | ixSlice (start stop step : Option Nat)
  | ixList (xs : List Nat)
  | ixMask (bs : List Bool)
deriving DecidableEq

/-- The local post-read selector produced by `_list_to_slice`: `slice(None)`
for a slice axis, or the adjusted index array for a list/mask axis.  Integer
axes contribute no selector (the source appends nothing to `idx_slice`). -/
inductive Sel where
  | all
  | arr (is : List Nat)
deriving DecidableEq

/-- An extracted numpy value: scalar (0-d), vector (1-d) or matrix (2-d). -/
inductive ND where
  | nd0 (q : ℚ)
  | nd1 (xs : List ℚ)
  | nd2 (xss : List (List ℚ))
deriving DecidableEq

/-- An array together with its dtype tag, as returned by the slicing entry
points (`_get_ds_slice` and the repeat helpers). -/
structure NDA where
  val : ND
  dtype : Dtype
deriving DecidableEq

/-- Structured contents of the errors the engine raises.  `indexError` is the
`IndexError('shape mismatch: ...')` of `_check_slice` and carries the distinct
list lengths its message formats; `runtimeError` is `ResourceRuntimeError`
from `_extract_ds_slice` and carries the dataset identity, the attempted
physical slice and the underlying cause; `ambiguous` and `shapeMismatch` are
the two `ResourceRuntimeError`s of `_get_ds_with_repeated_values`, carrying
the data their messages format. -/
inductive RexErr where
  | indexError (lens : List Nat)
  | runtimeError (dsName : String) (attempted : List Ax) (cause : String)
  | ambiguous (dsName : String) (dsLen : Nat)
  | shapeMismatch (dsName : String) (dsLen tiLen metaLen : Nat)
deriving DecidableEq

/-- Decidable equality of `Except` results, so that concrete runs of the
pipeline can be checked by `decide`. -/
instance {e a : Type} [DecidableEq e] [DecidableEq a] : DecidableEq (Except e a) :=
  fun x y =>
    match x, y with
    | Except.error e1, Except.error e2 =>
      if h : e1 = e2 then Decidable.isTrue (congrArg Except.error h)
      else Decidable.isFalse (fun hc => h (by injection hc))
    | Except.error _, Except.ok _ => Decidable.isFalse (fun hc => Except.noConfusion hc)
    | Except.ok _, Except.error _ => Decidable.isFalse (fun hc => Except.noConfusion hc)
    | Except.ok v1, Except.ok v2 =>
      if h : v1 = v2 then Decidable.isTrue (congrArg Except.ok h)
      else Decidable.isFalse (fun hc => h (by injection hc))

/-! ### Small list helpers shared by the embedding -/

/-- Numpy fancy indexing of a 1-d value buffer by an index array. -/
def gatherQ (xs : List ℚ) (is : List Nat) : List ℚ :=
  is.map (fun i => xs.getD i 0)

/-- Numpy fancy indexing of a 1-d index buffer by an index array. -/
def gatherN (xs : List Nat) (is : List Nat) : List Nat :=
  is.map (fun i => xs.getD i 0)

/-- Value of `in_slice.min()` (0 on the empty array, where numpy raises). -/
def listMin : List Nat → Nat
  | [] => 0
  | x :: r => r.foldl Nat.min x

/-- Value of `in_slice.max()` (0 on the empty array, where numpy raises). -/
def listMax : List Nat → Nat
  | [] => 0
  | x :: r => r.foldl Nat.max x

/-- Positions of the `True` entries of a boolean mask: `np.where(mask)[0]`. -/
def trueIdx (bs : List Bool) : List Nat :=
  (List.range bs.length).filter (fun i => bs.getD i false)

/-- Indices selected by a Python slice `start:stop:step` over an axis of
length `n`, following `slice.indices` for non-negative fields (start and stop
clip at `n`, step defaults to 1; a zero step raises in Python and is
unexercised here, yielding `[]`). -/
def sliceIdx (n : Nat) (start stop step : Option Nat) : List Nat :=
  let st := step.getD 1
  let s := Nat.min (start.getD 0) n
  let e := Nat.min (stop.getD n) n
  if st = 0 then []
  else (List.range ((e - s + st - 1) / st)).map (fun k => s + k * st)

/-- Buffer assignment `out[start:start+len(seg)] = seg`, the effect of the
`out[arr_slice] = ...` writes that `_get_out_arr_slice` directs (also used
row-wise on 2-d buffers). -/
def writeSeg {α : Type} (buf : List α) (start : Nat) (seg : List α) : List α :=
  buf.take start ++ seg ++ buf.drop (start + seg.length)

theorem foldl_min_le_init : ∀ (r : List Nat) (a : Nat), r.foldl Nat.min a ≤ a := by
  intro r
  induction r with
  | nil => intro a; exact Nat.le_refl a
  | cons b t ih => intro a; exact Nat.le_trans (ih (Nat.min a b)) (Nat.min_le_left a b)

theorem foldl_min_le_mem : ∀ (r : List Nat) (a z : Nat), z ∈ r → r.foldl Nat.min a ≤ z := by
  intro r
  induction r with
  | nil => intro a z hz; cases hz
  | cons b t ih =>
    intro a z hz
    cases List.mem_cons.mp hz with
    | inl h =>
      have h2 : List.foldl Nat.min (Nat.min a b) t ≤ b :=
        Nat.le_trans (foldl_min_le_init t (Nat.min a b)) (Nat.min_le_right a b)
      simpa [h] using h2
    | inr h => exact ih (Nat.min a b) z h

theorem init_le_foldl_max : ∀ (r : List Nat) (a : Nat), a ≤ r.foldl Nat.max a := by
  intro r
  induction r with
  | nil => intro a; exact Nat.le_refl a
  | cons b t ih => intro a; exact Nat.le_trans (Nat.le_max_left a b) (ih (Nat.max a b))

theorem mem_le_foldl_max : ∀ (r : List Nat) (a z : Nat), z ∈ r → z ≤ r.foldl Nat.max a := by
  intro r
  induction r with
  | nil => intro a z hz; cases hz
  | cons b t ih =>
    intro a z hz
    cases List.mem_cons.mp hz with
    | inl h =>
      have h2 : b ≤ List.foldl Nat.max (Nat.max a b) t :=
        Nat.le_trans (Nat.le_max_right a b) (init_le_foldl_max t (Nat.max a b))
      simpa [h] using h2
    | inr h => exact ih (Nat.max a b) z h

theorem listMin_le {xs : List Nat} {y : Nat} (hy : y ∈ xs) : listMin xs ≤ y := by
  match xs with
  | [] => cases hy
  | x :: r =>
    show r.foldl Nat.min x ≤ y
    cases List.mem_cons.mp hy with
    | inl h => exact h ▸ foldl_min_le_init r x
    | inr h => exact foldl_min_le_mem r x y h

theorem le_listMax {xs : List Nat} {y : Nat} (hy : y ∈ xs) : y ≤ listMax xs := by
  match xs with
  | [] => cases hy
  | x :: r =>
    show y ≤ r.foldl Nat.max x
    cases List.mem_cons.mp hy with
    | inl h => exact h ▸ init_le_foldl_max r x
    | inr h => exact mem_le_foldl_max r x y h

/-! ### argsort

`np.argsort(xs)` returns a permutation of `range(len(xs))` along which `xs`
is non-decreasing.  numpy's tie order for its default quicksort is
unspecified, so the embedding fixes a concrete insertion sort; every theorem
below uses only the two defining properties (permutation and sortedness of
the keys), which any argsort implementation satisfies. -/

/-- Insert position `i` into an index list that is already sorted by `key`. -/
def argInsert (key : Nat → Nat) (i : Nat) : List Nat → List Nat
  | [] => [i]
  | j :: js => if key j ≤ key i then j :: argInsert key i js else i :: j :: js

/-- Sort the positions of `l` by the given key. -/
def argsortList (key : Nat → Nat) (l : List Nat) : List Nat :=
  l.foldr (argInsert key) []

/-- Model of `np.argsort(xs)`. -/
def argsort (xs : List Nat) : List Nat :=
  argsortList (fun i => xs.getD i 0) (List.range xs.length)

theorem argInsert_perm (key : Nat → Nat) (i : Nat) :
    ∀ l : List Nat, List.Perm (argInsert key i l) (i :: l) := by
  intro l
  induction l with
  | nil => exact List.Perm.refl [i]
  | cons j js ih =>
    show List.Perm (if key j ≤ key i then j :: argInsert key i js else i :: j :: js)
      (i :: j :: js)
    by_cases h : key j ≤ key i
    · rw [if_pos h]
      exact List.Perm.trans (List.Perm.cons j ih) (List.Perm.swap i j js)
    · rw [if_neg h]

theorem argsortList_perm (key : Nat → Nat) :
    ∀ l : List Nat, List.Perm (argsortList key l) l := by
  intro l
  induction l with
  | nil => exact List.Perm.refl []
  | cons x t ih =>
    show List.Perm (argInsert key x (argsortList key t)) (x :: t)
    exact List.Perm.trans (argInsert_perm key x (argsortList key t)) (List.Perm.cons x ih)

theorem argInsert_pairwise (key : Nat → Nat) (i : Nat) {l : List Nat}
    (h : l.Pairwise (fun a b => key a ≤ key b)) :
    (argInsert key i l).Pairwise (fun a b => key a ≤ key b) := by
  induction l with
  | nil => simp [argInsert]
  | cons j js ih =>
    rcases List.pairwise_cons.mp h with ⟨hj, hjs⟩
    show (if key j ≤ key i then j :: argInsert key i js else i :: j :: js).Pairwise _
    by_cases hc : key j ≤ key i
    · rw [if_pos hc]
      refine List.pairwise_cons.mpr ⟨?_, ih hjs⟩
      intro k hk
      have hk2 : k ∈ i :: js := (argInsert_perm key i js).mem_iff.mp hk
      cases List.mem_cons.mp hk2 with
      | inl h2 => exact h2 ▸ hc
      | inr h2 => exact hj k h2
    · rw [if_neg hc]
      have hik : key i ≤ key j := Nat.le_of_lt (Nat.lt_of_not_le hc)
      refine List.pairwise_cons.mpr ⟨?_, h⟩
      intro k hk
      cases List.mem_cons.mp hk with
      | inl h2 => exact h2 ▸ hik
      | inr h2 => exact Nat.le_trans hik (hj k h2)

theorem argsortList_pairwise (key : Nat → Nat) (l : List Nat) :
    (argsortList key l).Pairwise (fun a b => key a ≤ key b) := by
  induction l with
  | nil => simp [argsortList]
  | cons x t ih => exact argInsert_pairwise key x ih

theorem argsort_perm (xs : List Nat) :
    List.Perm (argsort xs) (List.range xs.length) :=
  argsortList_perm _ _

theorem argsort_pairwise (xs : List Nat) :
    (argsort xs).Pairwise (fun a b => xs.getD a 0 ≤ xs.getD b 0) :=
  argsortList_pairwise _ _

theorem argsort_length (xs : List Nat) : (argsort xs).length = xs.length := by
  have := (argsort_perm xs).length_eq
  simpa using this

/-- Reading a list back through the identity enumeration of its positions. -/
theorem map_getD_range (l : List Nat) (d : Nat) :
    (List.range l.length).map (fun i => l.getD i d) = l := by
  apply List.ext_getElem
  · simp
  · intro i h1 h2
    simp only [List.getElem_map, List.getElem_range]
    exact List.getD_eq_getElem l d h2

/-- Sorting positions by the values, then reading the values back, yields a
rearrangement of the values. -/
theorem gather_argsort_perm (xs : List Nat) :
    List.Perm (gatherN xs (argsort xs)) xs := by
  have h1 : List.Perm ((argsort xs).map (fun i => xs.getD i 0))
      ((List.range xs.length).map (fun i => xs.getD i 0)) :=
    (argsort_perm xs).map _
  rw [map_getD_range xs 0] at h1
  exact h1

theorem gather_argsort_pairwise (xs : List Nat) :
    (gatherN xs (argsort xs)).Pairwise (· ≤ ·) :=
  (argsort_pairwise xs).map _ (fun _ _ h => h)

/-- A non-decreasing permutation of `range m` is `range m` itself. -/
theorem sorted_perm_range_eq {l : List Nat} {m : Nat}
    (hp : List.Perm l (List.range m)) (hs : l.Pairwise (· ≤ ·)) :
    l = List.range m :=
  List.eq_of_perm_of_sorted hp hs (List.pairwise_le_range m)

/-- Applying argsort twice inverts the first argsort: reading the sorting
permutation back through its own argsort yields the identity enumeration.
This is the engine's `sort_idx = np.argsort(np.argsort(ax_slice))`. -/
theorem argsort_argsort_gather (xs : List Nat) :
    gatherN (argsort xs) (argsort (argsort xs)) = List.range xs.length := by
  apply sorted_perm_range_eq
  · have h1 : List.Perm (gatherN (argsort xs) (argsort (argsort xs))) (argsort xs) :=
      gather_argsort_perm (argsort xs)
    exact h1.trans (argsort_perm xs)
  · exact gather_argsort_pairwise (argsort xs)

/-- Pointwise form of `argsort_argsort_gather`. -/
theorem argsort_argsort_getD (xs : List Nat) {i : Nat} (hi : i < xs.length) :
    (argsort xs).getD ((argsort (argsort xs)).getD i 0) 0 = i := by
  have hq : i < (argsort (argsort xs)).length := by
    rw [argsort_length, argsort_length]; exact hi
  have hmap : i < (gatherN (argsort xs) (argsort (argsort xs))).length := by
    simpa [gatherN] using hq
  have h1 : (gatherN (argsort xs) (argsort (argsort xs))).getD i 0 = i := by
    rw [argsort_argsort_gather xs]
    rw [List.getD_eq_getElem _ 0 (by simpa using hi)]
    simp
  rw [List.getD_eq_getElem _ 0 hmap] at h1
  have h2 : (gatherN (argsort xs) (argsort (argsort xs)))[i] =
      (argsort xs).getD ((argsort (argsort xs))[i]) 0 := by
    simp [gatherN]
  rw [h2] at h1
  rw [List.getD_eq_getElem (argsort (argsort xs)) 0 hq]
  exact h1

/-- Members of the double argsort are valid positions. -/
theorem argsort_argsort_mem_lt (xs : List Nat) {i : Nat}
    (hi : i ∈ argsort (argsort xs)) : i < xs.length := by
  have h1 : i ∈ List.range (argsort xs).length :=
    (argsort_perm (argsort xs)).mem_iff.mp hi
  rw [argsort_length] at h1
  exact List.mem_range.mp h1

/-! ### Chunk-gap splitting

`_extract_list_slice` computes `diff = np.diff(ax_slice) > c` on the sorted
index array and, when any gap exceeds the chunk extent, splits the array at
those positions with `np.split`. -/

/-- Trailing clause of the split: group `x :: ys` into runs, cutting before
`y` whenever the gap from the previous element exceeds the chunk extent. -/
def splitByGapAux (c : Nat) (x : Nat) : List Nat → List Nat × List (List Nat)
  | [] => ([x], [])
  | y :: ys =>
    if x + c < y then ([x], (splitByGapAux c y ys).1 :: (splitByGapAux c y ys).2)
    else (x :: (splitByGapAux c y ys).1, (splitByGapAux c y ys).2)

/-- Model of `np.split(ax_slice, np.where(np.diff(ax_slice) > c)[0] + 1)`. -/
def splitByGap (c : Nat) : List Nat → List (List Nat)
  | [] => []
  | x :: xs => (splitByGapAux c x xs).1 :: (splitByGapAux c x xs).2

/-- Test `np.any(np.diff(ax_slice) > c)` deciding whether a split happens. -/
def splitNeeded (c : Nat) (l : List Nat) : Bool :=
  (l.zip l.tail).any (fun p => decide (p.1 + c < p.2))

/-- The same test on a boolean mask axis: `np.diff` of a boolean array is
elementwise `not_equal` (xor), so the comparison `> c` compares 0/1 against
the chunk extent and can only fire for a zero extent, which h5py chunk
geometry never produces. -/
def maskSplitCond (c : Nat) (bs : List Bool) : Bool :=
  (bs.zip bs.tail).any (fun p => decide (c < (if p.1 != p.2 then 1 else 0)))

theorem splitByGapAux_spec (c : Nat) : ∀ (ys : List Nat) (x : Nat),
    (splitByGapAux c x ys).1 ++ (splitByGapAux c x ys).2.flatten = x :: ys
    ∧ (splitByGapAux c x ys).1.head? = some x
    ∧ (splitByGapAux c x ys).1 ≠ []
    ∧ (∀ q ∈ (splitByGapAux c x ys).2, q ≠ [])
    ∧ (splitByGapAux c x ys).1.Chain' (fun u v => v ≤ u + c)
    ∧ (∀ q ∈ (splitByGapAux c x ys).2, q.Chain' (fun u v => v ≤ u + c))
    ∧ List.Chain' (fun r s => ∀ u ∈ r.getLast?, ∀ v ∈ s.head?, u + c < v)
        ((splitByGapAux c x ys).1 :: (splitByGapAux c x ys).2) := by
  intro ys
  induction ys with
  | nil =>
    intro x
    refine ⟨rfl, rfl, by simp [splitByGapAux], ?_, ?_, ?_, ?_⟩
    · intro q hq; simp [splitByGapAux] at hq
    · simp [splitByGapAux]
    · intro q hq; simp [splitByGapAux] at hq
    · simp [splitByGapAux]
  | cons y ys ih =>
    intro x
    rcases ih y with ⟨ha, hh, hne, hne2, hch, hch2, hbd⟩
    show _ ∧ _ ∧ _ ∧ _ ∧ _ ∧ _ ∧ _
    by_cases hc : x + c < y
    · simp only [splitByGapAux, if_pos hc]
      refine ⟨?_, rfl, by simp, ?_, by simp, ?_, ?_⟩
      · simpa using ha
      · intro q hq
        cases List.mem_cons.mp hq with
        | inl h => exact h ▸ hne
        | inr h => exact hne2 q h
      · intro q hq
        cases List.mem_cons.mp hq with
        | inl h => exact h ▸ hch
        | inr h => exact hch2 q h
      · refine List.chain'_cons'.mpr ⟨?_, hbd⟩
        intro s hs u hu v hv
        have hs2 : (splitByGapAux c y ys).1 = s := by simpa using hs
        rw [← hs2] at hv
        simp only [List.getLast?_singleton] at hu
        rw [hh] at hv
        simp only [Option.mem_some_iff] at hu hv
        omega
    · simp only [splitByGapAux, if_neg hc]
      have hy : y ≤ x + c := Nat.le_of_not_lt hc
      refine ⟨?_, rfl, by simp, hne2, ?_, hch2, ?_⟩
      · simpa using ha
      · refine List.chain'_cons'.mpr ⟨?_, hch⟩
        intro v hv
        rw [hh] at hv
        simp only [Option.mem_some_iff] at hv
        omega
      · refine List.chain'_cons'.mpr ⟨?_, (List.chain'_cons'.mp hbd).2⟩
        intro s hs u hu v hv
        have hlast : (x :: (splitByGapAux c y ys).1).getLast? =
            ((splitByGapAux c y ys).1).getLast? := by
          cases hq : (splitByGapAux c y ys).1 with
          | nil => exact absurd hq hne
          | cons a t => exact List.getLast?_cons_cons
        rw [hlast] at hu
        exact (List.chain'_cons'.mp hbd).1 s hs u hu v hv

theorem splitByGap_flatten (c : Nat) (l : List Nat) :
    (splitByGap c l).flatten = l := by
  cases l with
  | nil => rfl
  | cons x xs =>
    show ((splitByGapAux c x xs).1 :: (splitByGapAux c x xs).2).flatten = x :: xs
    have := (splitByGapAux_spec c xs x).1
    simpa using this

theorem splitByGap_ne_nil (c : Nat) (l : List Nat) :
    ∀ p ∈ splitByGap c l, p ≠ [] := by
  cases l with
  | nil => intro p hp; cases hp
  | cons x xs =>
    intro p hp
    rcases splitByGapAux_spec c xs x with ⟨_, _, hne, hne2, _, _, _⟩
    cases List.mem_cons.mp hp with
    | inl h => exact h ▸ hne
    | inr h => exact hne2 p h

theorem splitByGap_within (c : Nat) (l : List Nat) :
    ∀ p ∈ splitByGap c l, p.Chain' (fun u v => v ≤ u + c) := by
  cases l with
  | nil => intro p hp; cases hp
  | cons x xs =>
    intro p hp
    rcases splitByGapAux_spec c xs x with ⟨_, _, _, _, hch, hch2, _⟩
    cases List.mem_cons.mp hp with
    | inl h => exact h ▸ hch
    | inr h => exact hch2 p h

theorem splitByGap_boundary (c : Nat) (l : List Nat) :
    (splitByGap c l).Chain' (fun r s => ∀ u ∈ r.getLast?, ∀ v ∈ s.head?, u + c < v) := by
  cases l with
  | nil => simp [splitByGap]
  | cons x xs => exact (splitByGapAux_spec c xs x).2.2.2.2.2.2

theorem splitByGap_mem {c : Nat} {l : List Nat} {p : List Nat} {y : Nat}
    (hp : p ∈ splitByGap c l) (hy : y ∈ p) : y ∈ l := by
  have : y ∈ (splitByGap c l).flatten := List.mem_flatten.mpr ⟨p, hp, hy⟩
  rwa [splitByGap_flatten c l] at this

/-! ### The dataset model

`DsCore` is the physical payload of an open dataset handle: axis length,
backing values, chunk geometry (`None` for an unchunked store).  `H5Dataset`
adds the pieces `ResourceDataset.__init__` reads from the handle: the native
dtype and the attribute map.  `RDataset` is the constructed wrapper with its
cached `_scale_factor`, `_adder` and effective `_unscale` flag. -/

structure DsCore where
  n : Nat
  data : Nat → ℚ
  chunks : Option Nat

structure RDataset where
  core : DsCore
  dtype : Dtype
  scale : ℚ
  adder : ℚ
  unscale : Bool

structure H5Dataset where
  n : Nat
  data : Nat → ℚ
  chunks : Option Nat
  dtype : Dtype
  attrs : List (String × ℚ)

/-- Model of `_parse_scale_add_attrs`: walk the prioritized attribute names
and return the first one present, else the default. -/
def parseScaleAddAttrs (attrs : List (String × ℚ)) : List String → ℚ → ℚ
  | [], d => d
  | nm :: rest, d =>
    match attrs.lookup nm with
    | some v => v
    | none => parseScaleAddAttrs attrs rest d

/-- Model of `ResourceDataset.__init__`: parse scale factor and add offset
from the attributes, then disable unscaling when both are at their defaults
(`scale_factor == 1 and add_offset == 0`). -/
def mkResourceDataset (h : H5Dataset) (scaleAttr addAttr : List String)
    (unscale : Bool) : RDataset :=
  let sf := parseScaleAddAttrs h.attrs scaleAttr 1
  let ad := parseScaleAddAttrs h.attrs addAttr 0
  { core := ⟨h.n, h.data, h.chunks⟩, dtype := h.dtype, scale := sf, adder := ad,
    unscale := if sf = 1 ∧ ad = 0 then false else unscale }

/-- Default attribute names used by `BaseResource` (`SCALE_ATTR`). -/
def scaleAttrNames : List String := ["scale_factor"]

/-- Default attribute names used by `BaseResource` (`ADD_ATTR`). -/
def addAttrNames : List String := ["add_offset"]

/-! ### `_list_to_slice` and the physical read -/

/-- Shared tail of `_list_to_slice` once a list/mask has been materialised as
an integer index array `in_slice`: the covering contiguous range
`slice(min, max + 1)` plus the locally shifted index array `in_slice - min`. -/
def listToSliceCore (xs : List Nat) : Ax × Option Sel :=
  (Ax.ixSlice (some (listMin xs)) (some (listMax xs + 1)) none,
   some (Sel.arr (xs.map (fun x => x - listMin xs))))

/-- Model of `_list_to_slice`: a boolean mask is first converted with
`np.where` into the index list of its True positions, then handled by the
same min/max code path; a slice passes through with selector `slice(None)`;
an integer passes through with no selector. -/
def listToSlice : Ax → Ax × Option Sel
  | Ax.ixList xs => listToSliceCore xs
  | Ax.ixMask bs => listToSliceCore (trueIdx bs)
  | Ax.ixSlice a b st => (Ax.ixSlice a b st, some Sel.all)
  | Ax.ixInt i => (Ax.ixInt i, none)

/-- The backing-store read `self.ds[slices]` on one axis.  After
`_list_to_slice` the store is only ever addressed with an integer or a
contiguous range; the list/mask cases are numpy-native fancy reads, present
for totality but unreachable from the engine. -/
def physRead1 (dc : DsCore) : Ax → ND
  | Ax.ixInt i => ND.nd0 (dc.data i)
  | Ax.ixSlice a b st => ND.nd1 ((sliceIdx dc.n a b st).map dc.data)
  | Ax.ixList xs => ND.nd1 (xs.map dc.data)
  | Ax.ixMask bs => ND.nd1 ((trueIdx bs).map dc.data)

/-- Post-read application of `idx_slice` in `_extract_ds_slice`: the source
skips the application when every selector is `slice(None)` (and the empty
tuple from integer axes), which is the identity anyway. -/
def applySel1 (out : ND) : Option Sel → ND
  | none => out
  | some Sel.all => out
  | some (Sel.arr is) =>
    match out with
    | ND.nd1 xs => ND.nd1 (gatherQ xs is)
    | o => o

/-- Model of `_extract_ds_slice` for a rank-1 dataset with a total backing
store: resolve the axis entry with `_list_to_slice`, read, apply the local
selector. -/
def extractDsSlice1 (dc : DsCore) (a : Ax) : ND :=
  applySel1 (physRead1 dc (listToSlice a).1) (listToSlice a).2

/-- Model of `_extract_ds_slice` with a fallible backing store: any exception
from `self.ds[slices]` is re-raised as a `ResourceRuntimeError` whose message
carries the dataset identity and the attempted physical slice (the `try`
block encloses only the store read; the selector application happens after).
There is no retry: the single store call either succeeds or the wrapped error
propagates. -/
def extractDsSliceE (dsName : String) (store : Ax → Except String ND)
    (a : Ax) : Except RexErr ND :=
  match store (listToSlice a).1 with
  | Except.error e => Except.error (RexErr.runtimeError dsName [(listToSlice a).1] e)
  | Except.ok out => Except.ok (applySel1 out (listToSlice a).2)

/-- Vector contents of an extracted array (scalar reads yield a singleton
when written into a 1-d output buffer). -/
def ndVec : ND → List ℚ
  | ND.nd1 xs => xs
  | ND.nd0 q => [q]
  | ND.nd2 _ => []

/-- The assembly loop of `_extract_list_slice` for a rank-1 request: iterate
over the split sub-lists, extract each via `_extract_ds_slice`, and write it
into the pre-allocated output buffer at the cursor `_get_out_arr_slice`
maintains (each sub-list advances the cursor by its own length). -/
def assemble1 (dc : DsCore) (parts : List (List Nat)) (total : Nat) : List ℚ :=
  (parts.foldl
    (fun acc part =>
      (writeSeg acc.1 acc.2 (ndVec (extractDsSlice1 dc (Ax.ixList part))), acc.2 + part.length))
    (List.replicate total 0, 0)).1

/-- Model of `_extract_list_slice` for a rank-1 request.  With no chunking,
`list_len` stays `None` and the original request goes straight to
`_extract_ds_slice`.  With chunking, the list axis is sorted and split at
gaps exceeding the chunk extent; if no split is needed `list_len` again stays
`None` and the original (unsorted) request is extracted directly; otherwise
the sub-lists are read separately, assembled, and the inverse-sort
permutation `np.argsort(np.argsort(ax_slice))` is applied.  The mask branch
mirrors numpy boolean `diff`: its split test can fire only for a zero chunk
extent, which h5py never produces; the value of that dead branch is
immaterial. -/
def extractListSlice1 (dc : DsCore) (a : Ax) : ND :=
  match dc.chunks with
  | none => extractDsSlice1 dc a
  | some c =>
    match a with
    | Ax.ixList xs =>
      let sorted := gatherN xs (argsort xs)
      if splitNeeded c sorted then
        ND.nd1 (gatherQ (assemble1 dc (splitByGap c sorted) xs.length)
          (argsort (argsort xs)))
      else extractDsSlice1 dc (Ax.ixList xs)
    | Ax.ixMask bs =>
      if maskSplitCond c bs then ND.nd1 [] else extractDsSlice1 dc (Ax.ixMask bs)
    | other => extractDsSlice1 dc other

/-! ### `_check_slice`, `_extract_multi_list_slice` and `_get_ds_slice` -/

/-- Length contributed to `_check_slice`'s `list_len` collection: lists and
masks count with their raw `len` (a mask counts its full length, not its
number of True entries). -/
def axLen : Ax → Option Nat
  | Ax.ixList xs => some xs.length
  | Ax.ixMask bs => some bs.length
  | _ => none

/-- Model of `_check_slice`: collect the lengths of all list-like entries;
more than one list-like entry sets `multi_list`; distinct lengths raise the
`IndexError('shape mismatch ...')` naming the distinct lengths. -/
def checkSlice (s : List Ax) : Except RexErr (Option Nat × Bool) :=
  let lens := s.filterMap axLen
  if lens.isEmpty then Except.ok (none, false)
  else
    let multi := decide (1 < lens.length)
    let d := lens.dedup
    if 1 < d.length then Except.error (RexErr.indexError d)
    else Except.ok (some (d.headD 0), multi)

/-- Model of `_extract_multi_list_slice` specialised to rank 1 (unreachable:
a one-entry request carries at most one list, so `multi_list` is never set;
kept for structural completeness of `_get_ds_slice`).  Each zipped entry is a
single integer; `_get_out_arr_slice` writes the scalar read at the running
cursor and advances it by one. -/
def extractMultiListSlice1 (dc : DsCore) (a : Ax) (len : Nat) : ND :=
  match a with
  | Ax.ixList xs =>
    ND.nd1 ((xs.foldl
      (fun acc i =>
        (writeSeg acc.1 acc.2 (ndVec (extractDsSlice1 dc (Ax.ixInt i))), acc.2 + 1))
      (List.replicate len 0, 0)).1)
  | _ => ND.nd1 []

/-- Model of `_unscale_data`, per element: `astype('float32')` then
`data *= scale_factor; data += adder` when the adder is non-zero, else
`data /= scale_factor`. -/
def unscaleVal (scale adder x : ℚ) : ℚ :=
  if adder ≠ 0 then x * scale + adder else x / scale

def mapND (f : ℚ → ℚ) : ND → ND
  | ND.nd0 q => ND.nd0 (f q)
  | ND.nd1 xs => ND.nd1 (xs.map f)
  | ND.nd2 m => ND.nd2 (m.map (fun r => r.map f))

/-- Model of `_unscale_data` on a tagged array: the values are decoded and
the dtype becomes float32. -/
def unscaleData (scale adder : ℚ) (x : NDA) : NDA :=
  ⟨mapND (unscaleVal scale adder) x.val, Dtype.float32⟩

/-- Model of `_get_ds_slice` for a rank-1 request: `_check_slice`, dispatch
to the multi-list / single-list / plain extraction, then unscale when the
effective flag is set.  Every intermediate numpy buffer is allocated with
`dtype=self.dtype`, so the raw result carries the native dtype. -/
def getDsSlice1 (ds : RDataset) (a : Ax) : Except RexErr NDA :=
  match checkSlice [a] with
  | Except.error e => Except.error e
  | Except.ok (listLen, multi) =>
    let raw : ND :=
      match listLen, multi with
      | some len, true => extractMultiListSlice1 ds.core a len
      | some _, false => extractListSlice1 ds.core a
      | none, _ => extractDsSlice1 ds.core a
    let out : NDA := ⟨raw, ds.dtype⟩
    Except.ok (if ds.unscale then unscaleData ds.scale ds.adder out else out)


/-! ### Correctness of the single-list extraction path -/

theorem foldl_min_mem : ∀ (r : List Nat) (a : Nat), r.foldl Nat.min a ∈ a :: r := by
  intro r
  induction r with
  | nil => intro a; exact List.mem_singleton_self a
  | cons b t ih =>
    intro a
    show t.foldl Nat.min (Nat.min a b) ∈ a :: b :: t
    have hm : Nat.min a b = a ∨ Nat.min a b = b := by
      rcases Nat.le_total a b with hab | hab
      · exact Or.inl (Nat.min_eq_left hab)
      · exact Or.inr (Nat.min_eq_right hab)
    have h1 := ih (Nat.min a b)
    rcases List.mem_cons.mp h1 with h | h
    · rcases hm with hm | hm
      · rw [h, hm]
        exact List.mem_cons_self a (b :: t)
      · rw [h, hm]
        exact List.mem_cons_of_mem a (List.mem_cons_self b t)
    · exact List.mem_cons_of_mem a (List.mem_cons_of_mem b h)

theorem foldl_max_mem : ∀ (r : List Nat) (a : Nat), r.foldl Nat.max a ∈ a :: r := by
  intro r
  induction r with
  | nil => intro a; exact List.mem_singleton_self a
  | cons b t ih =>
    intro a
    show t.foldl Nat.max (Nat.max a b) ∈ a :: b :: t
    have hm : Nat.max a b = a ∨ Nat.max a b = b := by
      rcases Nat.le_total a b with hab | hab
      · exact Or.inr (Nat.max_eq_right hab)
      · exact Or.inl (Nat.max_eq_left hab)
    have h1 := ih (Nat.max a b)
    rcases List.mem_cons.mp h1 with h | h
    · rcases hm with hm | hm
      · rw [h, hm]
        exact List.mem_cons_self a (b :: t)
      · rw [h, hm]
        exact List.mem_cons_of_mem a (List.mem_cons_self b t)
    · exact List.mem_cons_of_mem a (List.mem_cons_of_mem b h)

theorem listMin_mem {xs : List Nat} (h : xs ≠ []) : listMin xs ∈ xs := by
  match xs with
  | [] => exact absurd rfl h
  | x :: r => exact foldl_min_mem r x

theorem listMax_mem {xs : List Nat} (h : xs ≠ []) : listMax xs ∈ xs := by
  match xs with
  | [] => exact absurd rfl h
  | x :: r => exact foldl_max_mem r x

/-- Evaluation of `_extract_ds_slice` on an in-bounds, non-empty index list:
the covering contiguous read followed by the local fancy-index application
returns exactly the requested values, in the order of the request. -/
theorem extractDsSlice1_list (dc : DsCore) (xs : List Nat) (hne : xs ≠ [])
    (hb : ∀ i ∈ xs, i < dc.n) :
    extractDsSlice1 dc (Ax.ixList xs) = ND.nd1 (xs.map dc.data) := by
  have hmn : listMin xs < dc.n := hb _ (listMin_mem hne)
  have hMn : listMax xs < dc.n := hb _ (listMax_mem hne)
  have hsl : sliceIdx dc.n (some (listMin xs)) (some (listMax xs + 1)) none
      = (List.range (listMax xs + 1 - listMin xs)).map
        (fun k => listMin xs + k * 1) := by
    simp only [sliceIdx, Option.getD_some, Option.getD_none]
    rw [if_neg (by omega)]
    have e1 : Nat.min (listMin xs) dc.n = listMin xs :=
      Nat.min_eq_left (Nat.le_of_lt hmn)
    have e2 : Nat.min (listMax xs + 1) dc.n = listMax xs + 1 :=
      Nat.min_eq_left (by omega)
    rw [e1, e2]
    simp
  show applySel1 (physRead1 dc (listToSlice (Ax.ixList xs)).1)
      (listToSlice (Ax.ixList xs)).2 = ND.nd1 (xs.map dc.data)
  simp only [listToSlice, listToSliceCore, physRead1, applySel1, hsl]
  congr 1
  rw [gatherQ, List.map_map]
  apply List.map_congr_left
  intro x hx
  have h1 : listMin xs ≤ x := listMin_le hx
  have h2 : x ≤ listMax xs := le_listMax hx
  have hlen : x - listMin xs <
      ((List.map (fun k => listMin xs + k * 1)
        (List.range (listMax xs + 1 - listMin xs))).map dc.data).length := by
    simp
    omega
  simp only [Function.comp_apply]
  rw [List.getD_eq_getElem _ _ hlen]
  simp only [List.getElem_map, List.getElem_range]
  exact congrArg dc.data (by omega)

theorem writeSeg_length {α : Type} {buf seg : List α} {start : Nat}
    (h : start + seg.length ≤ buf.length) :
    (writeSeg buf start seg).length = buf.length := by
  simp [writeSeg]
  omega

/-- The assembly loop writes each sub-list's extraction at the running
cursor; as the cursor advances by exactly the sub-list lengths, the writes
tile the buffer with the concatenated reads. -/
theorem assemble_fold_spec (dc : DsCore) :
    ∀ (parts : List (List Nat)) (buf : List ℚ) (start : Nat),
    (∀ p ∈ parts, p ≠ []) →
    (∀ p ∈ parts, ∀ i ∈ p, i < dc.n) →
    start + (parts.map List.length).sum ≤ buf.length →
    (parts.foldl
      (fun acc part =>
        (writeSeg acc.1 acc.2 (ndVec (extractDsSlice1 dc (Ax.ixList part))),
         acc.2 + part.length))
      (buf, start)).1
      = buf.take start ++ (parts.map (fun p => p.map dc.data)).flatten
          ++ buf.drop (start + (parts.map List.length).sum) := by
  intro parts
  induction parts with
  | nil =>
    intro buf start _ _ _
    simp [List.take_append_drop]
  | cons p ps ih =>
    intro buf start hne hb hsum
    have hpne : p ≠ [] := hne p (List.mem_cons_self p ps)
    have hpb : ∀ i ∈ p, i < dc.n := hb p (List.mem_cons_self p ps)
    have hseg : ndVec (extractDsSlice1 dc (Ax.ixList p)) = p.map dc.data := by
      rw [extractDsSlice1_list dc p hpne hpb]
      rfl
    have hsum2 : (List.map List.length (p :: ps)).sum
        = p.length + (ps.map List.length).sum := by simp
    have hstart : start + p.length ≤ buf.length := by
      rw [hsum2] at hsum; omega
    rw [List.foldl_cons]
    have hbuf1 : writeSeg buf start (ndVec (extractDsSlice1 dc (Ax.ixList p)))
        = (buf.take start ++ p.map dc.data) ++ buf.drop (start + p.length) := by
      rw [hseg, writeSeg, List.append_assoc]
      simp
    rw [ih _ (start + p.length)
      (fun q hq => hne q (List.mem_cons_of_mem p hq))
      (fun q hq => hb q (List.mem_cons_of_mem p hq))
      (by
        rw [hbuf1]
        have hlen1 : ((buf.take start ++ p.map dc.data)
            ++ buf.drop (start + p.length)).length = buf.length := by
          simp
          omega
        rw [hlen1]
        rw [hsum2] at hsum
        omega)]
    have hpre : ((buf.take start ++ p.map dc.data)
        ++ buf.drop (start + p.length)).take (start + p.length)
        = buf.take start ++ p.map dc.data := by
      apply List.take_left'
      simp
      omega
    have hdrop : ∀ k : Nat, ((buf.take start ++ p.map dc.data)
        ++ buf.drop (start + p.length)).drop (start + p.length + k)
        = buf.drop (start + p.length + k) := by
      intro k
      have hplen : (buf.take start ++ p.map dc.data).length = start + p.length := by
        simp
        omega
      rw [← List.drop_drop, List.drop_left' hplen, List.drop_drop]
    rw [hbuf1, hpre, hdrop ((List.map List.length ps).sum)]
    rw [hsum2]
    simp [List.append_assoc, Nat.add_assoc]

/-- The full assembly over a fresh zero buffer of exactly the request length
is the concatenation of the per-sub-list reads. -/
theorem assemble1_eq (dc : DsCore) (parts : List (List Nat)) (total : Nat)
    (hne : ∀ p ∈ parts, p ≠ [])
    (hb : ∀ p ∈ parts, ∀ i ∈ p, i < dc.n)
    (htot : (parts.map List.length).sum = total) :
    assemble1 dc parts total = (parts.map (fun p => p.map dc.data)).flatten := by
  rw [assemble1, assemble_fold_spec dc parts (List.replicate total 0) 0 hne hb
    (by simp [htot])]
  simp [htot]

/-- Reading the sorted values, then applying the inverse-sort permutation,
recovers the values in the order of the original request. -/
theorem gather_sorted_unsort (dc : DsCore) (xs : List Nat) :
    gatherQ ((gatherN xs (argsort xs)).map dc.data) (argsort (argsort xs))
      = xs.map dc.data := by
  apply List.ext_getElem
  · simp [gatherQ, argsort_length]
  · intro i h1 h2
    have hi : i < xs.length := by simpa using h2
    have hq : i < (argsort (argsort xs)).length := by
      rw [argsort_length, argsort_length]; exact hi
    simp only [gatherQ, List.getElem_map]
    have hqm : (argsort (argsort xs))[i] < xs.length :=
      argsort_argsort_mem_lt xs (List.getElem_mem hq)
    have hlen1 : (argsort (argsort xs))[i]
        < ((gatherN xs (argsort xs)).map dc.data).length := by
      simp [gatherN, argsort_length]
      exact hqm
    rw [List.getD_eq_getElem _ _ hlen1]
    have hlen2 : (argsort (argsort xs))[i] < (argsort xs).length := by
      rw [argsort_length]; exact hqm
    simp only [gatherN, List.getElem_map]
    rw [← List.getD_eq_getElem (argsort xs) 0 hlen2,
      ← List.getD_eq_getElem (argsort (argsort xs)) 0 hq]
    rw [argsort_argsort_getD xs hi]
    rw [List.getD_eq_getElem xs 0 hi]

/-- Core correctness of `_extract_list_slice` on a chunked dataset: whatever
splitting and re-sorting happens internally, the extracted vector is the
requested values in the caller's original order. -/
theorem extractListSlice1_list (dc : DsCore) (c : Nat) (xs : List Nat)
    (hc : dc.chunks = some c) (hne : xs ≠ []) (hb : ∀ i ∈ xs, i < dc.n) :
    extractListSlice1 dc (Ax.ixList xs) = ND.nd1 (xs.map dc.data) := by
  have hperm := gather_argsort_perm xs
  simp only [extractListSlice1, hc]
  by_cases hsp : splitNeeded c (gatherN xs (argsort xs)) = true
  · rw [if_pos hsp]
    have hbs : ∀ i ∈ gatherN xs (argsort xs), i < dc.n :=
      fun i hi => hb i (hperm.mem_iff.mp hi)
    have hppart := splitByGap_ne_nil c (gatherN xs (argsort xs))
    have hpb : ∀ p ∈ splitByGap c (gatherN xs (argsort xs)), ∀ i ∈ p, i < dc.n :=
      fun p hp i hi => hbs i (splitByGap_mem hp hi)
    have hsum : ((splitByGap c (gatherN xs (argsort xs))).map List.length).sum
        = xs.length := by
      have h1 := splitByGap_flatten c (gatherN xs (argsort xs))
      have h2 := congrArg List.length h1
      rw [List.length_flatten] at h2
      rw [h2]
      simp [gatherN, argsort_length]
    rw [assemble1_eq dc _ _ hppart hpb hsum]
    rw [← List.map_flatten, splitByGap_flatten]
    rw [gather_sorted_unsort]
  · rw [if_neg hsp]
    exact extractDsSlice1_list dc xs hne hb


/-! ### The rank-2 pipeline

The same functions of `ResourceDataset`, instantiated at a rank-2 dataset
(the `(time, site)` layout of resource variables).  The claims exercising
this rank concern `_check_slice` and `_extract_multi_list_slice`; the
single-list branch is embedded for completeness of `_get_ds_slice`'s
dispatch. -/

structure DsCore2 where
  n1 : Nat
  n2 : Nat
  data : Nat → Nat → ℚ
  chunks : Option (Nat × Nat)

structure RDataset2 where
  core : DsCore2
  dtype : Dtype
  scale : ℚ
  adder : ℚ
  unscale : Bool

/-- Numpy fancy indexing of the rows of a 2-d buffer. -/
def gatherRows (m : List (List ℚ)) (is : List Nat) : List (List ℚ) :=
  is.map (fun i => m.getD i [])

/-- The backing-store read `self.ds[slices]` on two axes; as in rank 1, the
engine only addresses the store with integers and contiguous ranges. -/
def physRead2 (dc : DsCore2) : Ax → Ax → ND
  | Ax.ixInt i, Ax.ixInt j => ND.nd0 (dc.data i j)
  | Ax.ixInt i, Ax.ixSlice a b st => ND.nd1 ((sliceIdx dc.n2 a b st).map (dc.data i))
  | Ax.ixSlice a b st, Ax.ixInt j =>
    ND.nd1 ((sliceIdx dc.n1 a b st).map (fun i => dc.data i j))
  | Ax.ixSlice a b st, Ax.ixSlice a2 b2 st2 =>
    ND.nd2 ((sliceIdx dc.n1 a b st).map
      (fun i => (sliceIdx dc.n2 a2 b2 st2).map (dc.data i)))
  | _, _ => ND.nd1 []

/-- Collect the per-axis selectors in axis order, skipping integer axes,
exactly as `_extract_ds_slice` builds `idx_slice`. -/
def selListOf : Option Sel → Option Sel → List Sel
  | some s1, some s2 => [s1, s2]
  | some s1, none => [s1]
  | none, some s2 => [s2]
  | none, none => []

/-- Application of `out[idx_slice]` for up to two collected selectors, with
numpy semantics (a lone array selects along the read's only axis; two arrays
would be parallel fancy indexing, unreachable from the engine because two
list axes are routed to `_extract_multi_list_slice` instead). -/
def applySel2 (out : ND) : List Sel → ND
  | [] => out
  | [Sel.all] => out
  | [Sel.arr is] =>
    match out with
    | ND.nd1 xs => ND.nd1 (gatherQ xs is)
    | o => o
  | [Sel.all, Sel.all] => out
  | [Sel.arr is, Sel.all] =>
    match out with
    | ND.nd2 m => ND.nd2 (gatherRows m is)
    | o => o
  | [Sel.all, Sel.arr js] =>
    match out with
    | ND.nd2 m => ND.nd2 (m.map (fun row => gatherQ row js))
    | o => o
  | [Sel.arr is, Sel.arr js] =>
    match out with
    | ND.nd2 m => ND.nd1 ((is.zip js).map (fun p => (m.getD p.1 []).getD p.2 0))
    | o => o
  | _ => out

/-- Model of `_extract_ds_slice` at rank 2. -/
def extractDsSlice2 (dc : DsCore2) (a b : Ax) : ND :=
  applySel2 (physRead2 dc (listToSlice a).1 (listToSlice b).1)
    (selListOf (listToSlice a).2 (listToSlice b).2)

/-- Model of `_make_list_slices`: a list axis contributes its own entries
(one integer per zip position); every other axis entry is duplicated
`list_len` times so the axes can be zipped.  A mask axis is kept as-is by the
source and zips raw booleans into the downstream reads; no integer-list
request reaches that combination, and it is modelled as the 0/1 value the
boolean would carry. -/
def msEntry (len : Nat) : Ax → List Ax
  | Ax.ixList xs => xs.map Ax.ixInt
  | Ax.ixMask bs => bs.map (fun bit => Ax.ixInt (cond bit 1 0))
  | other => List.replicate len other

def makeListSlices (s : List Ax) (len : Nat) : List (List Ax) :=
  s.map (msEntry len)

/-- Model of `_extract_multi_list_slice` at rank 2 for the reachable shape
(both axes carry lists): zip the two lists, perform one scalar read per
pair, and write it at the running cursor of the 1-d output buffer
(`_get_out_arr_slice` returns `(start,)` and advances by one for an
all-integer entry). -/
def extractMultiListSlice2 (dc : DsCore2) (a b : Ax) (len : Nat) : ND :=
  match a, b with
  | Ax.ixList xs, Ax.ixList ys =>
    ND.nd1 (((xs.zip ys).foldl
      (fun acc p =>
        (writeSeg acc.1 acc.2 (ndVec (extractDsSlice2 dc (Ax.ixInt p.1) (Ax.ixInt p.2))),
         acc.2 + 1))
      (List.replicate len 0, 0)).1)
  | _, _ => ND.nd1 []

/-- Matrix contents of an extracted array. -/
def ndToMat : ND → List (List ℚ)
  | ND.nd2 m => m
  | _ => []

/-- Output extent contributed by the non-list axis 1 entry
(`_get_out_arr_shape`: a slice contributes its index count, an integer axis
is dropped). -/
def bCount (dc : DsCore2) : Ax → Nat
  | Ax.ixSlice a b st => (sliceIdx dc.n2 a b st).length
  | _ => 0

/-- Output extent contributed by the non-list axis 0 entry. -/
def aCount (dc : DsCore2) : Ax → Nat
  | Ax.ixSlice a b st => (sliceIdx dc.n1 a b st).length
  | _ => 0

/-- Column-band assignment `out[:, start:stop] = seg`. -/
def writeCols (buf : List (List ℚ)) (start : Nat) (seg : List (List ℚ)) :
    List (List ℚ) :=
  List.zipWith (fun row segrow => writeSeg row start segrow) buf seg

/-- Model of `_extract_list_slice` at rank 2.  One axis carries the list (the
only reachable shape: two list-like axes go to the multi-list path); with
chunking, that axis is sorted and split at gaps exceeding its chunk extent,
the sub-requests are read and written as row (or column) bands of the output
buffer, and `out[tuple(sort_idx)]` applies the inverse permutation on the
list axis and `slice(None)` on a slice axis (an integer axis contributes no
selector).  As in rank 1, if no split is needed the original request goes
straight to `_extract_ds_slice`, and a mask's split test cannot fire for the
positive chunk extents h5py produces. -/
def extractListSlice2 (dc : DsCore2) (a b : Ax) : ND :=
  match dc.chunks with
  | none => extractDsSlice2 dc a b
  | some (c1, c2) =>
    match a, b with
    | Ax.ixList xs, bo =>
      if splitNeeded c1 (gatherN xs (argsort xs)) then
        match bo with
        | Ax.ixInt _ =>
          ND.nd1 (gatherQ
            (((splitByGap c1 (gatherN xs (argsort xs))).foldl
              (fun acc part =>
                (writeSeg acc.1 acc.2 (ndVec (extractDsSlice2 dc (Ax.ixList part) bo)),
                 acc.2 + part.length))
              (List.replicate xs.length 0, 0)).1)
            (argsort (argsort xs)))
        | _ =>
          ND.nd2 (gatherRows
            (((splitByGap c1 (gatherN xs (argsort xs))).foldl
              (fun acc part =>
                (writeSeg acc.1 acc.2 (ndToMat (extractDsSlice2 dc (Ax.ixList part) bo)),
                 acc.2 + part.length))
              (List.replicate xs.length (List.replicate (bCount dc bo) 0), 0)).1)
            (argsort (argsort xs)))
      else extractDsSlice2 dc (Ax.ixList xs) bo
    | ao, Ax.ixList ys =>
      if splitNeeded c2 (gatherN ys (argsort ys)) then
        match ao with
        | Ax.ixInt _ =>
          ND.nd1 (gatherQ
            (((splitByGap c2 (gatherN ys (argsort ys))).foldl
              (fun acc part =>
                (writeSeg acc.1 acc.2 (ndVec (extractDsSlice2 dc ao (Ax.ixList part))),
                 acc.2 + part.length))
              (List.replicate ys.length 0, 0)).1)
            (argsort (argsort ys)))
        | _ =>
          ND.nd2 (List.map (fun row => gatherQ row (argsort (argsort ys)))
            (((splitByGap c2 (gatherN ys (argsort ys))).foldl
              (fun acc part =>
                (writeCols acc.1 acc.2 (ndToMat (extractDsSlice2 dc ao (Ax.ixList part))),
                 acc.2 + part.length))
              (List.replicate (aCount dc ao) (List.replicate ys.length 0), 0)).1))
      else extractDsSlice2 dc ao (Ax.ixList ys)
    | Ax.ixMask bs, bo =>
      if maskSplitCond c1 bs then ND.nd1 []
      else extractDsSlice2 dc (Ax.ixMask bs) bo
    | ao, Ax.ixMask bs =>
      if maskSplitCond c2 bs then ND.nd1 []
      else extractDsSlice2 dc ao (Ax.ixMask bs)
    | ao, bo => extractDsSlice2 dc ao bo

/-- Model of `_get_ds_slice` for a rank-2 request. -/
def getDsSlice2 (ds : RDataset2) (a b : Ax) : Except RexErr NDA :=
  match checkSlice [a, b] with
  | Except.error e => Except.error e
  | Except.ok (listLen, multi) =>
    let raw : ND :=
      match listLen, multi with
      | some len, true => extractMultiListSlice2 ds.core a b len
      | some _, false => extractListSlice2 ds.core a b
      | none, _ => extractDsSlice2 ds.core a b
    let out : NDA := ⟨raw, ds.dtype⟩
    Except.ok (if ds.unscale then unscaleData ds.scale ds.adder out else out)

/-! ### `BaseResource` and the 1-d broadcast (repeat) fallback

`Res` carries the two well-known companion lengths: `shapes['time_index']`
and `shapes['meta']` (both rank-1 datasets), plus the resource-level
`_unscale` flag passed to every `ResourceDataset.extract` call. -/

structure Res where
  tiLen : Nat
  metaLen : Nat
  unscale : Bool

/-- Model of `ResourceDataset.extract(ds, ds_slice, SCALE_ATTR, ADD_ATTR,
unscale=self._unscale)` on a one-entry slice: construct the wrapper, then
index it. -/
def rdExt (r : Res) (h : H5Dataset) (a : Ax) : Except RexErr NDA :=
  getDsSlice1 (mkResourceDataset h scaleAttrNames addAttrNames r.unscale) a

/-- Numpy indexing `vec[b]` of a 1-d array by one slice entry. -/
def applyAx1 (b : Ax) (vec : List ℚ) : ND :=
  match b with
  | Ax.ixInt j => ND.nd0 (vec.getD j 0)
  | Ax.ixSlice s e st => ND.nd1 (gatherQ vec (sliceIdx vec.length s e st))
  | Ax.ixList is => ND.nd1 (gatherQ vec is)
  | Ax.ixMask bs => ND.nd1 (gatherQ vec (trueIdx bs))

/-- Numpy indexing `out[:, b]` of a matrix on the column axis. -/
def colSel (b : Ax) (rows : List (List ℚ)) : ND :=
  match b with
  | Ax.ixInt j => ND.nd1 (rows.map (fun row => row.getD j 0))
  | Ax.ixSlice s e st => ND.nd2 (rows.map (fun row => gatherQ row (sliceIdx row.length s e st)))
  | Ax.ixList is => ND.nd2 (rows.map (fun row => gatherQ row is))
  | Ax.ixMask bs => ND.nd2 (rows.map (fun row => gatherQ row (trueIdx bs)))

/-- Numpy indexing `out[a]` of a matrix on the row axis. -/
def rowSel (a : Ax) (rows : List (List ℚ)) : ND :=
  match a with
  | Ax.ixInt i => ND.nd1 (rows.getD i [])
  | Ax.ixSlice s e st => ND.nd2 (gatherRows rows (sliceIdx rows.length s e st))
  | Ax.ixList is => ND.nd2 (gatherRows rows is)
  | Ax.ixMask bs => ND.nd2 (gatherRows rows (trueIdx bs))

/-- Model of `_get_ds_with_spatial_repeat`: warn, extract the 1-d data with
the temporal part of the slice, repeat it along the site axis (a scalar is
multiplied into `np.ones(meta_shape)`, an array is `np.repeat`-ed columnwise),
sub-slice with the site entry, and return as float32. -/
def spatialRepeat (r : Res) (h : H5Dataset) (a b : Ax) : Except RexErr NDA :=
  match rdExt r h a with
  | Except.error e => Except.error e
  | Except.ok out =>
    Except.ok (match out.val with
      | ND.nd0 q => ⟨applyAx1 b (List.replicate r.metaLen q), Dtype.float32⟩
      | ND.nd1 xs =>
        ⟨colSel b (xs.map (fun q => List.replicate r.metaLen q)), Dtype.float32⟩
      | ND.nd2 m => ⟨ND.nd2 m, Dtype.float32⟩)

/-- Model of `_get_ds_with_temporal_repeat`: warn, extract the 1-d data with
the site part of the slice, repeat it along the temporal axis, sub-slice
with the temporal entry, and return as float32. -/
def temporalRepeat (r : Res) (h : H5Dataset) (a b : Ax) : Except RexErr NDA :=
  match rdExt r h b with
  | Except.error e => Except.error e
  | Except.ok out =>
    Except.ok (match out.val with
      | ND.nd0 q => ⟨applyAx1 a (List.replicate r.tiLen q), Dtype.float32⟩
      | ND.nd1 xs => ⟨rowSel a (List.replicate r.tiLen xs), Dtype.float32⟩
      | ND.nd2 m => ⟨ND.nd2 m, Dtype.float32⟩)

/-- Model of `_get_ds_with_repeated_values`: reject when the shapes of
`time_index` and `meta` coincide (repeat direction cannot be inferred);
otherwise dispatch on the dataset's own length, or reject when it matches
neither.  The boolean in the result records that the chosen repeat path
emitted its (non-fatal) warning. -/
def getDsWithRepeatedValues (r : Res) (h : H5Dataset) (name : String)
    (a b : Ax) : Except RexErr (Bool × NDA) :=
  if r.tiLen = r.metaLen then Except.error (RexErr.ambiguous name h.n)
  else if h.n = r.tiLen then (spatialRepeat r h a b).map (fun o => (true, o))
  else if h.n = r.metaLen then (temporalRepeat r h a b).map (fun o => (true, o))
  else Except.error (RexErr.shapeMismatch name h.n r.tiLen r.metaLen)

/-- The sequence of physical reads `_extract_list_slice` issues for a
chunked single-list axis: the spec's ReadPlan, derived from the same split
and `_list_to_slice` conversion the extraction itself uses. -/
def listReadPlan (c : Nat) (xs : List Nat) : List Ax :=
  if splitNeeded c (gatherN xs (argsort xs)) then
    (splitByGap c (gatherN xs (argsort xs))).map
      (fun part => (listToSlice (Ax.ixList part)).1)
  else [(listToSlice (Ax.ixList xs)).1]


/-! ### Supporting lemmas for the claim theorems -/

theorem two_mem_dedup_one_lt {l : List Nat} {x y : Nat} (hx : x ∈ l) (hy : y ∈ l)
    (hxy : x ≠ y) : 1 < l.dedup.length := by
  have hx2 : x ∈ l.dedup := List.mem_dedup.mpr hx
  have hy2 : y ∈ l.dedup := List.mem_dedup.mpr hy
  cases hd : l.dedup with
  | nil => rw [hd] at hx2; cases hx2
  | cons a t =>
    cases t with
    | nil =>
      rw [hd] at hx2 hy2
      simp at hx2 hy2
      exact absurd (hx2.trans hy2.symm) hxy
    | cons b t2 => simp

theorem dedup_length_le_one {l : List Nat} (h : ∀ x ∈ l, ∀ y ∈ l, x = y) :
    ¬ 1 < l.dedup.length := by
  intro hlt
  cases hd : l.dedup with
  | nil => rw [hd] at hlt; simp at hlt
  | cons a t =>
    cases t with
    | nil => rw [hd] at hlt; simp at hlt
    | cons b t2 =>
      have ha : a ∈ l := by
        have h2 : a ∈ l.dedup := by rw [hd]; exact List.mem_cons_self a (b :: t2)
        exact List.mem_dedup.mp h2
      have hb : b ∈ l := by
        have h2 : b ∈ l.dedup := by
          rw [hd]; exact List.mem_cons_of_mem a (List.mem_cons_self b t2)
        exact List.mem_dedup.mp h2
      have hnd := List.nodup_dedup l
      rw [hd] at hnd
      rcases List.pairwise_cons.mp hnd with ⟨hne2, _⟩
      exact hne2 b (List.mem_cons_self b t2) (h a ha b hb)

/-! ### Claim theorems -/

/-- C3: for every chunked dataset, the single-list read path splits the
sorted indices exactly where two consecutive sorted indices differ by more
than the chunk extent `c` (within every sub-list consecutive entries differ
by at most `c`; across a split boundary by more than `c`; the sub-lists
reassemble the input), each sub-list is converted by `_list_to_slice` into
the covering contiguous range `min..max+1` plus the local index array, and
for chunk size 10 with requested indices `[2, 3, 50, 51]` the derived read
plan issues exactly two physical reads (`2..4` and `50..52`) rather than one
read spanning `2..52`. -/
theorem chunk_split_reads :
    (∀ (c : Nat) (ys : List Nat), (splitByGap c ys).flatten = ys)
    ∧ (∀ (c : Nat) (ys : List Nat), ∀ p ∈ splitByGap c ys,
        p ≠ [] ∧ p.Chain' (fun u v => v ≤ u + c))
    ∧ (∀ (c : Nat) (ys : List Nat), (splitByGap c ys).Chain'
        (fun r s => ∀ u ∈ r.getLast?, ∀ v ∈ s.head?, u + c < v))
    ∧ (∀ part : List Nat, part ≠ [] →
        listToSlice (Ax.ixList part)
          = (Ax.ixSlice (some (listMin part)) (some (listMax part + 1)) none,
             some (Sel.arr (part.map (fun x => x - listMin part)))))
    ∧ listReadPlan 10 [2, 3, 50, 51]
        = [Ax.ixSlice (some 2) (some 4) none, Ax.ixSlice (some 50) (some 52) none]
    ∧ 2 ≤ (listReadPlan 10 [2, 3, 50, 51]).length := by
  refine ⟨splitByGap_flatten, ?_, splitByGap_boundary, ?_, by decide, by decide⟩
  · intro c ys p hp
    exact ⟨splitByGap_ne_nil c ys p hp, splitByGap_within c ys p hp⟩
  · intro part _
    rfl

theorem chunk_split_reads_witness :
    (splitByGap 10 [2, 3, 50, 51]).flatten = [2, 3, 50, 51]
    ∧ ([2, 3] ≠ [] ∧ List.Chain' (fun u v => v ≤ u + 10) [2, 3])
    ∧ listToSlice (Ax.ixList [2, 3])
        = (Ax.ixSlice (some (listMin [2, 3])) (some (listMax [2, 3] + 1)) none,
           some (Sel.arr ([2, 3].map (fun x => x - listMin [2, 3])))) :=
  ⟨chunk_split_reads.1 10 [2, 3, 50, 51],
   chunk_split_reads.2.1 10 [2, 3, 50, 51] [2, 3] (by decide),
   chunk_split_reads.2.2.2.1 [2, 3] (by decide)⟩

/-- C4: when two or more axes carry explicit index lists of unequal lengths,
`_check_slice` rejects the request with the shape-mismatch `IndexError`
naming the distinct offending lengths, so the get operation returns an error
and no data; when all list-like entries have equal length the check accepts
the request and the get operation produces a result. -/
theorem mismatched_list_length_rejection :
    (∀ s : List Ax, (∃ x ∈ s.filterMap axLen, ∃ y ∈ s.filterMap axLen, x ≠ y) →
      checkSlice s = Except.error (RexErr.indexError (s.filterMap axLen).dedup)
        ∧ ∀ x ∈ s.filterMap axLen, x ∈ (s.filterMap axLen).dedup)
    ∧ (∀ s : List Ax, (∀ x ∈ s.filterMap axLen, ∀ y ∈ s.filterMap axLen, x = y) →
      ∃ v, checkSlice s = Except.ok v)
    ∧ (∀ (ds : RDataset2) (xs ys : List Nat), xs.length ≠ ys.length →
      getDsSlice2 ds (Ax.ixList xs) (Ax.ixList ys)
        = Except.error (RexErr.indexError [xs.length, ys.length]))
    ∧ (∀ (ds : RDataset2) (xs ys : List Nat), xs.length = ys.length →
      ∃ out, getDsSlice2 ds (Ax.ixList xs) (Ax.ixList ys) = Except.ok out) := by
  refine ⟨?_, ?_, ?_, ?_⟩
  · intro s hx
    obtain ⟨x, hx, y, hy, hxy⟩ := hx
    have hne : (s.filterMap axLen).isEmpty = false :=
      List.isEmpty_eq_false.mpr (List.ne_nil_of_mem hx)
    have hlt := two_mem_dedup_one_lt hx hy hxy
    constructor
    · simp only [checkSlice, hne]
      rw [if_neg (by simp)]
      rw [if_pos hlt]
    · intro z hz
      exact List.mem_dedup.mpr hz
  · intro s hall
    by_cases hemp : (s.filterMap axLen).isEmpty = true
    · exact ⟨(none, false), by simp [checkSlice, hemp]⟩
    · refine ⟨(some ((s.filterMap axLen).dedup.headD 0),
        decide (1 < (s.filterMap axLen).length)), ?_⟩
      simp only [checkSlice]
      rw [if_neg hemp, if_neg (dedup_length_le_one hall)]
  · intro ds xs ys hlen
    have hd : ([xs.length, ys.length] : List Nat).dedup = [xs.length, ys.length] := by
      rw [List.dedup_cons_of_not_mem (by simp [hlen]),
        List.dedup_cons_of_not_mem (by simp), List.dedup_nil]
    have hcs : checkSlice [Ax.ixList xs, Ax.ixList ys]
        = Except.error (RexErr.indexError [xs.length, ys.length]) := by
      simp [checkSlice, List.filterMap_cons, axLen, hd]
    simp [getDsSlice2, hcs]
  · intro ds xs ys heq
    have hd : ([xs.length, ys.length] : List Nat).dedup = [ys.length] := by
      rw [heq, List.dedup_cons_of_mem (List.mem_cons_self _ _),
        List.dedup_cons_of_not_mem (by simp), List.dedup_nil]
    have hcs : checkSlice [Ax.ixList xs, Ax.ixList ys]
        = Except.ok (some ys.length, true) := by
      simp [checkSlice, List.filterMap_cons, axLen, hd]
    refine ⟨if ds.unscale then unscaleData ds.scale ds.adder
        ⟨extractMultiListSlice2 ds.core (Ax.ixList xs) (Ax.ixList ys) ys.length, ds.dtype⟩
      else ⟨extractMultiListSlice2 ds.core (Ax.ixList xs) (Ax.ixList ys) ys.length, ds.dtype⟩, ?_⟩
    simp only [getDsSlice2, hcs]

theorem mismatched_list_length_rejection_witness :
    getDsSlice2 ⟨⟨4, 4, fun i j => (i + j : ℚ), none⟩, Dtype.int16, 1, 0, false⟩
        (Ax.ixList [0, 1, 2]) (Ax.ixList [0, 1, 2, 3, 4])
      = Except.error (RexErr.indexError [3, 5])
    ∧ ∃ out, getDsSlice2 ⟨⟨4, 4, fun i j => (i + j : ℚ), none⟩, Dtype.int16, 1, 0, false⟩
        (Ax.ixList [0, 1]) (Ax.ixList [2, 3]) = Except.ok out :=
  ⟨mismatched_list_length_rejection.2.2.1 _ [0, 1, 2] [0, 1, 2, 3, 4] (by decide),
   mismatched_list_length_rejection.2.2.2 _ [0, 1] [2, 3] (by decide)⟩

/-- C6: a 2-axis request against a 1-d dataset fails with the fatal
ambiguity `ResourceRuntimeError` (naming the dataset and its shape) whenever
the temporal index and the site metadata have the same length — no repeat
direction is guessed, and no data is returned. -/
theorem broadcast_ambiguity_fatal (r : Res) (h : H5Dataset) (name : String)
    (a b : Ax) (heq : r.tiLen = r.metaLen) :
    getDsWithRepeatedValues r h name a b
      = Except.error (RexErr.ambiguous name h.n) := by
  simp [getDsWithRepeatedValues, heq]

theorem broadcast_ambiguity_fatal_witness :
    getDsWithRepeatedValues ⟨8, 8, true⟩
        ⟨8, fun i => (i : ℚ), none, Dtype.int16, []⟩ "pressure"
        (Ax.ixSlice none none none) (Ax.ixSlice none none none)
      = Except.error (RexErr.ambiguous "pressure" 8) :=
  broadcast_ambiguity_fatal ⟨8, 8, true⟩ ⟨8, fun i => (i : ℚ), none, Dtype.int16, []⟩
    "pressure" (Ax.ixSlice none none none) (Ax.ixSlice none none none) rfl

/-- C9: if the backing store raises on the physical read, `_extract_ds_slice`
re-raises a single `ResourceRuntimeError` carrying the dataset identity and
the attempted physical slice, returning no partial result (the store is
called exactly once, so the error propagates with no retry); with a
non-failing store the extraction succeeds. -/
theorem store_error_wrapped (dsName : String) (store : Ax → Except String ND)
    (a : Ax) (e : String) (hfail : store (listToSlice a).1 = Except.error e) :
    extractDsSliceE dsName store a
      = Except.error (RexErr.runtimeError dsName [(listToSlice a).1] e)
    ∧ ∀ dc : DsCore,
        extractDsSliceE dsName (fun p => Except.ok (physRead1 dc p)) a
          = Except.ok (extractDsSlice1 dc a) := by
  constructor
  · simp [extractDsSliceE, hfail]
  · intro dc
    rfl

theorem store_error_wrapped_witness :
    extractDsSliceE "windspeed" (fun _ => Except.error "I/O failure")
        (Ax.ixList [4, 1, 3])
      = Except.error (RexErr.runtimeError "windspeed"
          [(listToSlice (Ax.ixList [4, 1, 3])).1] "I/O failure") :=
  (store_error_wrapped "windspeed" (fun _ => Except.error "I/O failure")
    (Ax.ixList [4, 1, 3]) "I/O failure" rfl).1


theorem checkSlice_single_list (xs : List Nat) :
    checkSlice [Ax.ixList xs] = Except.ok (some xs.length, false) := by
  have hd : ([xs.length] : List Nat).dedup = [xs.length] := by
    rw [List.dedup_cons_of_not_mem (by simp), List.dedup_nil]
  simp [checkSlice, List.filterMap_cons, axLen, hd]

theorem checkSlice_single_mask (bs : List Bool) :
    checkSlice [Ax.ixMask bs] = Except.ok (some bs.length, false) := by
  have hd : ([bs.length] : List Nat).dedup = [bs.length] := by
    rw [List.dedup_cons_of_not_mem (by simp), List.dedup_nil]
  simp [checkSlice, List.filterMap_cons, axLen, hd]

theorem checkSlice_single_int (i : Nat) :
    checkSlice [Ax.ixInt i] = Except.ok (none, false) := by
  simp [checkSlice, List.filterMap_cons, axLen]

/-- C2: on a chunked dataset, a get with an explicit (possibly unsorted)
integer index list on its axis returns the selected values in the caller's
original list order — element `i` of the output is the (possibly unscaled)
value at requested index `i` — even though `_extract_list_slice` sorts the
indices, splits them at chunk gaps and applies the inverse-sort permutation
after assembly. -/
theorem list_order_preservation (ds : RDataset) (c : Nat) (xs : List Nat)
    (hc : ds.core.chunks = some c) (hne : xs ≠ []) (hb : ∀ i ∈ xs, i < ds.core.n) :
    getDsSlice1 ds (Ax.ixList xs)
      = Except.ok (if ds.unscale then
          ⟨ND.nd1 (xs.map (fun i => unscaleVal ds.scale ds.adder (ds.core.data i))),
           Dtype.float32⟩
        else ⟨ND.nd1 (xs.map ds.core.data), ds.dtype⟩) := by
  simp only [getDsSlice1, checkSlice_single_list]
  rw [extractListSlice1_list ds.core c xs hc hne hb]
  cases hu : ds.unscale with
  | false => simp
  | true => simp [unscaleData, mapND, List.map_map, Function.comp]

theorem list_order_preservation_witness :
    getDsSlice1 ⟨⟨10, fun i => (i * i : ℚ), some 2⟩, Dtype.int16, 1, 0, false⟩
        (Ax.ixList [4, 1, 3])
      = Except.ok (if (false : Bool) then
          ⟨ND.nd1 ([4, 1, 3].map (fun i => unscaleVal 1 0 ((fun i => (i * i : ℚ)) i))),
           Dtype.float32⟩
        else ⟨ND.nd1 ([4, 1, 3].map (fun i => (i * i : ℚ))), Dtype.int16⟩) :=
  list_order_preservation ⟨⟨10, fun i => (i * i : ℚ), some 2⟩, Dtype.int16, 1, 0, false⟩
    2 [4, 1, 3] rfl (by decide) (by decide)

/-- C1: with unscaling requested (the default) and a non-default scale/offset
parsed from the attributes, the get operation first assembles the raw result
and then applies `_unscale_data` to it: the dtype is promoted to float32 and
every element is decoded asymmetrically — `value*scale_factor + add_offset`
when the offset is non-zero, else `value/scale_factor`; in particular raw
`120` with `scale_factor=10, add_offset=0` decodes to `12` and raw `3` with
`scale_factor=1, add_offset=5` decodes to `8`. -/
theorem unscale_asymmetric_decode (h : H5Dataset) (a : Ax)
    (hnd : ¬ (parseScaleAddAttrs h.attrs scaleAttrNames 1 = 1
              ∧ parseScaleAddAttrs h.attrs addAttrNames 0 = 0)) :
    (getDsSlice1 (mkResourceDataset h scaleAttrNames addAttrNames true) a
      = (getDsSlice1 (mkResourceDataset h scaleAttrNames addAttrNames false) a).map
          (unscaleData (parseScaleAddAttrs h.attrs scaleAttrNames 1)
            (parseScaleAddAttrs h.attrs addAttrNames 0)))
    ∧ (∀ x : NDA, ∀ scale adder : ℚ, (unscaleData scale adder x).dtype = Dtype.float32)
    ∧ (∀ scale adder x : ℚ, adder ≠ 0 → unscaleVal scale adder x = x * scale + adder)
    ∧ (∀ scale x : ℚ, unscaleVal scale 0 x = x / scale)
    ∧ unscaleVal 10 0 120 = 12
    ∧ unscaleVal 1 5 3 = 8 := by
  refine ⟨?_, fun x scale adder => rfl, ?_, ?_, by norm_num [unscaleVal], by norm_num [unscaleVal]⟩
  · have hu1 : (mkResourceDataset h scaleAttrNames addAttrNames true).unscale = true := by
      simp only [mkResourceDataset]
      rw [if_neg hnd]
    have hu2 : (mkResourceDataset h scaleAttrNames addAttrNames false).unscale = false := by
      simp only [mkResourceDataset]
      split <;> rfl
    cases hcs : checkSlice [a] with
    | error e =>
      simp only [getDsSlice1, hcs]
      rfl
    | ok v =>
      obtain ⟨ll, ml⟩ := v
      simp only [getDsSlice1, hcs, hu1, hu2]
      simp only [if_true, Bool.false_eq_true, if_false]
      rfl
  · intro scale adder x hk
    simp [unscaleVal, hk]
  · intro scale x
    simp [unscaleVal]

theorem unscale_asymmetric_decode_witness :
    getDsSlice1 (mkResourceDataset
        ⟨3, fun _ => (120 : ℚ), none, Dtype.int16, [("scale_factor", 10)]⟩
        scaleAttrNames addAttrNames true) (Ax.ixInt 0)
      = (getDsSlice1 (mkResourceDataset
          ⟨3, fun _ => (120 : ℚ), none, Dtype.int16, [("scale_factor", 10)]⟩
          scaleAttrNames addAttrNames false) (Ax.ixInt 0)).map
          (unscaleData
            (parseScaleAddAttrs [("scale_factor", 10)] scaleAttrNames 1)
            (parseScaleAddAttrs [("scale_factor", 10)] addAttrNames 0)) :=
  (unscale_asymmetric_decode
    ⟨3, fun _ => (120 : ℚ), none, Dtype.int16, [("scale_factor", 10)]⟩
    (Ax.ixInt 0) (by decide)).1

/-- C10: when the parsed attributes yield `scale_factor = 1` and
`add_offset = 0` (in particular when both attributes are absent, so the
defaults apply), the constructor disables unscaling even though the caller
asked for it, and every get returns the raw stored values tagged with the
dataset's native dtype — no float promotion and no decoding. -/
theorem default_scale_no_unscale (h : H5Dataset)
    (hs : parseScaleAddAttrs h.attrs scaleAttrNames 1 = 1)
    (ha : parseScaleAddAttrs h.attrs addAttrNames 0 = 0) :
    (mkResourceDataset h scaleAttrNames addAttrNames true).unscale = false
    ∧ (∀ i : Nat,
        getDsSlice1 (mkResourceDataset h scaleAttrNames addAttrNames true) (Ax.ixInt i)
          = Except.ok ⟨ND.nd0 (h.data i), h.dtype⟩)
    ∧ (∀ xs : List Nat, xs ≠ [] → (∀ i ∈ xs, i < h.n) →
        getDsSlice1 (mkResourceDataset h scaleAttrNames addAttrNames true) (Ax.ixList xs)
          = Except.ok ⟨ND.nd1 (xs.map h.data), h.dtype⟩) := by
  have hu : (mkResourceDataset h scaleAttrNames addAttrNames true).unscale = false := by
    simp only [mkResourceDataset]
    rw [if_pos ⟨hs, ha⟩]
  refine ⟨hu, ?_, ?_⟩
  · intro i
    simp only [getDsSlice1, checkSlice_single_int, hu]
    rw [if_neg (by simp)]
    rfl
  · intro xs hxne hxb
    simp only [getDsSlice1, checkSlice_single_list, hu]
    rw [if_neg (by simp)]
    have hcore : (mkResourceDataset h scaleAttrNames addAttrNames true).core
        = ⟨h.n, h.data, h.chunks⟩ := rfl
    rw [hcore]
    cases hch : h.chunks with
    | none =>
      rw [show extractListSlice1 ⟨h.n, h.data, none⟩ (Ax.ixList xs)
          = extractDsSlice1 ⟨h.n, h.data, none⟩ (Ax.ixList xs) from rfl]
      rw [extractDsSlice1_list ⟨h.n, h.data, none⟩ xs hxne hxb]
      rfl
    | some c =>
      rw [extractListSlice1_list ⟨h.n, h.data, some c⟩ c xs rfl hxne hxb]
      rfl

theorem default_scale_no_unscale_witness :
    (mkResourceDataset ⟨5, fun i => (2 * i : ℚ), some 2, Dtype.int32, []⟩
      scaleAttrNames addAttrNames true).unscale = false
    ∧ getDsSlice1 (mkResourceDataset ⟨5, fun i => (2 * i : ℚ), some 2, Dtype.int32, []⟩
        scaleAttrNames addAttrNames true) (Ax.ixList [3, 0, 2])
      = Except.ok ⟨ND.nd1 ([3, 0, 2].map (fun i => (2 * i : ℚ))), Dtype.int32⟩ :=
  ⟨(default_scale_no_unscale ⟨5, fun i => (2 * i : ℚ), some 2, Dtype.int32, []⟩
      rfl rfl).1,
   (default_scale_no_unscale ⟨5, fun i => (2 * i : ℚ), some 2, Dtype.int32, []⟩
      rfl rfl).2.2 [3, 0, 2] (by decide) (by decide)⟩


theorem multi_fold_spec (dc : DsCore2) :
    ∀ (zs : List (Nat × Nat)) (buf : List ℚ) (start : Nat),
    start + zs.length ≤ buf.length →
    (zs.foldl
      (fun acc p =>
        (writeSeg acc.1 acc.2 (ndVec (extractDsSlice2 dc (Ax.ixInt p.1) (Ax.ixInt p.2))),
         acc.2 + 1))
      (buf, start)).1
    = buf.take start ++ zs.map (fun p => dc.data p.1 p.2)
        ++ buf.drop (start + zs.length) := by
  intro zs
  induction zs with
  | nil =>
    intro buf start _
    simp [List.take_append_drop]
  | cons p ps ih =>
    intro buf start hsum
    have hseg : ndVec (extractDsSlice2 dc (Ax.ixInt p.1) (Ax.ixInt p.2))
        = [dc.data p.1 p.2] := rfl
    have hstart : start + 1 ≤ buf.length := by
      simp at hsum
      omega
    rw [List.foldl_cons]
    have hbuf1 : writeSeg buf start (ndVec (extractDsSlice2 dc (Ax.ixInt p.1) (Ax.ixInt p.2)))
        = (buf.take start ++ [dc.data p.1 p.2]) ++ buf.drop (start + 1) := by
      rw [hseg, writeSeg, List.append_assoc]
      simp
    rw [ih _ (start + 1)
      (by
        rw [hbuf1]
        have hlen1 : ((buf.take start ++ [dc.data p.1 p.2])
            ++ buf.drop (start + 1)).length = buf.length := by
          simp
          omega
        rw [hlen1]
        simp at hsum
        omega)]
    have hpre : ((buf.take start ++ [dc.data p.1 p.2])
        ++ buf.drop (start + 1)).take (start + 1)
        = buf.take start ++ [dc.data p.1 p.2] := by
      apply List.take_left'
      simp
      omega
    have hdrop : ∀ k : Nat, ((buf.take start ++ [dc.data p.1 p.2])
        ++ buf.drop (start + 1)).drop (start + 1 + k)
        = buf.drop (start + 1 + k) := by
      intro k
      have hplen : (buf.take start ++ [dc.data p.1 p.2]).length = start + 1 := by
        simp
        omega
      rw [← List.drop_drop, List.drop_left' hplen, List.drop_drop]
    rw [hbuf1, hpre, hdrop ps.length]
    simp [List.append_assoc, Nat.add_assoc, Nat.add_comm 1 ps.length]

/-- Evaluation of `_extract_multi_list_slice` on two equal-length lists: one
scalar read per zipped pair, assembled positionally in request order. -/
theorem extractMultiListSlice2_eq (dc : DsCore2) (xs ys : List Nat)
    (hlen : xs.length = ys.length) :
    extractMultiListSlice2 dc (Ax.ixList xs) (Ax.ixList ys) ys.length
      = ND.nd1 ((xs.zip ys).map (fun p => dc.data p.1 p.2)) := by
  simp only [extractMultiListSlice2]
  congr 1
  have hz : (xs.zip ys).length = ys.length := by
    rw [List.length_zip, hlen, Nat.min_self]
  rw [multi_fold_spec dc (xs.zip ys) (List.replicate ys.length 0) 0 (by simp [hz])]
  simp only [List.take_zero, List.nil_append, Nat.zero_add, hz]
  rw [List.drop_of_length_le (by simp), List.append_nil]

/-- C5: with index lists on both axes (parallel fancy indexing), the engine
zips the per-axis sequences — `_make_list_slices` broadcasts every non-list
entry to the common list length and passes each list through as its own
entries — performs one physical read per zipped pair, and assembles the
results positionally with no re-sort: output position `i` holds the
(possibly unscaled) element addressed by `(list1[i], list2[i])`. -/
theorem multi_list_pointwise_gather :
    (∀ (len : Nat) (ax : Ax), axLen ax = none → msEntry len ax = List.replicate len ax)
    ∧ (∀ (len : Nat) (xs : List Nat), msEntry len (Ax.ixList xs) = xs.map Ax.ixInt)
    ∧ (∀ (s : List Ax) (len : Nat), makeListSlices s len = s.map (msEntry len))
    ∧ (∀ (ds : RDataset2) (xs ys : List Nat), xs.length = ys.length →
      getDsSlice2 ds (Ax.ixList xs) (Ax.ixList ys)
        = Except.ok (if ds.unscale then
            ⟨ND.nd1 ((xs.zip ys).map
                (fun p => unscaleVal ds.scale ds.adder (ds.core.data p.1 p.2))),
             Dtype.float32⟩
          else ⟨ND.nd1 ((xs.zip ys).map (fun p => ds.core.data p.1 p.2)),
             ds.dtype⟩)) := by
  refine ⟨?_, fun len xs => rfl, fun s len => rfl, ?_⟩
  · intro len ax hax
    cases ax with
    | ixInt i => rfl
    | ixSlice a b st => rfl
    | ixList xs => simp [axLen] at hax
    | ixMask bs => simp [axLen] at hax
  · intro ds xs ys hlen
    have hd : ([xs.length, ys.length] : List Nat).dedup = [ys.length] := by
      rw [hlen, List.dedup_cons_of_mem (List.mem_cons_self _ _),
        List.dedup_cons_of_not_mem (by simp), List.dedup_nil]
    have hcs : checkSlice [Ax.ixList xs, Ax.ixList ys]
        = Except.ok (some ys.length, true) := by
      simp [checkSlice, List.filterMap_cons, axLen, hd]
    simp only [getDsSlice2, hcs]
    rw [extractMultiListSlice2_eq ds.core xs ys hlen]
    cases hu : ds.unscale with
    | false => simp
    | true => simp [unscaleData, mapND, List.map_map, Function.comp]

theorem multi_list_pointwise_gather_witness :
    getDsSlice2 ⟨⟨6, 6, fun i j => (10 * i + j : ℚ), none⟩, Dtype.int32, 1, 0, false⟩
        (Ax.ixList [0, 2, 4]) (Ax.ixList [1, 1, 0])
      = Except.ok (if (false : Bool) then
          ⟨ND.nd1 (([0, 2, 4].zip [1, 1, 0]).map
              (fun p => unscaleVal 1 0 ((fun i j => (10 * i + j : ℚ)) p.1 p.2))),
           Dtype.float32⟩
        else ⟨ND.nd1 (([0, 2, 4].zip [1, 1, 0]).map
            (fun p => (fun i j => (10 * i + j : ℚ)) p.1 p.2)), Dtype.int32⟩) :=
  multi_list_pointwise_gather.2.2.2
    ⟨⟨6, 6, fun i j => (10 * i + j : ℚ), none⟩, Dtype.int32, 1, 0, false⟩
    [0, 2, 4] [1, 1, 0] rfl

/-- C7: for a 2-axis request against a 1-d dataset (with the ambiguity of
equal companion lengths excluded): when the dataset's length equals the
temporal-index length, the values are repeated along the site axis, then
sub-sliced by the site-axis entry, with the non-fatal warning emitted; when
it equals the metadata length instead, they are repeated along the temporal
axis, with the same warning; when it matches neither, the request fails with
the fatal shape-mismatch error; and every successful broadcast result is
float32. -/
theorem repeated_values_policy (r : Res) (h : H5Dataset) (name : String)
    (a b : Ax) (hne : r.tiLen ≠ r.metaLen) :
    (h.n = r.tiLen →
      getDsWithRepeatedValues r h name a b
        = (spatialRepeat r h a b).map (fun o => (true, o)))
    ∧ (h.n ≠ r.tiLen → h.n = r.metaLen →
      getDsWithRepeatedValues r h name a b
        = (temporalRepeat r h a b).map (fun o => (true, o)))
    ∧ (h.n ≠ r.tiLen → h.n ≠ r.metaLen →
      getDsWithRepeatedValues r h name a b
        = Except.error (RexErr.shapeMismatch name h.n r.tiLen r.metaLen))
    ∧ (∀ o : NDA, spatialRepeat r h a b = Except.ok o → o.dtype = Dtype.float32)
    ∧ (∀ o : NDA, temporalRepeat r h a b = Except.ok o → o.dtype = Dtype.float32)
    ∧ (∀ (xs : List ℚ) (is : List Nat) (out : NDA),
        rdExt r h a = Except.ok out → out.val = ND.nd1 xs →
        (∀ j ∈ is, j < r.metaLen) →
        spatialRepeat r h a (Ax.ixList is)
          = Except.ok ⟨ND.nd2 (xs.map (fun q => is.map (fun _ => q))), Dtype.float32⟩)
    ∧ (∀ (ys : List ℚ) (is : List Nat) (out : NDA),
        rdExt r h b = Except.ok out → out.val = ND.nd1 ys →
        (∀ i ∈ is, i < r.tiLen) →
        temporalRepeat r h (Ax.ixList is) b
          = Except.ok ⟨ND.nd2 (is.map (fun _ => ys)), Dtype.float32⟩) := by
  refine ⟨?_, ?_, ?_, ?_, ?_, ?_, ?_⟩
  · intro h1
    simp only [getDsWithRepeatedValues]
    rw [if_neg hne, if_pos h1]
  · intro h1 h2
    simp only [getDsWithRepeatedValues]
    rw [if_neg hne, if_neg h1, if_pos h2]
  · intro h1 h2
    simp only [getDsWithRepeatedValues]
    rw [if_neg hne, if_neg h1, if_neg h2]
  · intro o ho
    cases hr : rdExt r h a with
    | error e =>
      simp only [spatialRepeat, hr] at ho
      exact Except.noConfusion ho
    | ok out =>
      obtain ⟨v, dt⟩ := out
      simp only [spatialRepeat, hr] at ho
      cases v with
      | nd0 q => injection ho with h2; rw [← h2]
      | nd1 xs => injection ho with h2; rw [← h2]
      | nd2 m => injection ho with h2; rw [← h2]
  · intro o ho
    cases hr : rdExt r h b with
    | error e =>
      simp only [temporalRepeat, hr] at ho
      exact Except.noConfusion ho
    | ok out =>
      obtain ⟨v, dt⟩ := out
      simp only [temporalRepeat, hr] at ho
      cases v with
      | nd0 q => injection ho with h2; rw [← h2]
      | nd1 xs => injection ho with h2; rw [← h2]
      | nd2 m => injection ho with h2; rw [← h2]
  · intro xs is out hr hval hb2
    obtain ⟨v, dt⟩ := out
    simp only at hval
    subst hval
    have key : List.map ((fun row => gatherQ row is)
          ∘ fun q => List.replicate r.metaLen q) xs
        = List.map (fun q => is.map (fun _ => q)) xs := by
      apply List.map_congr_left
      intro q hq
      simp only [Function.comp_apply, gatherQ]
      apply List.map_congr_left
      intro j hj
      have hjm := hb2 j hj
      rw [List.getD_eq_getElem _ _ (by simpa using hjm)]
      simp
    simp only [spatialRepeat, hr, colSel]
    rw [List.map_map, key]
  · intro ys is out hr hval hb2
    obtain ⟨v, dt⟩ := out
    simp only at hval
    subst hval
    have key : List.map (fun i => (List.replicate r.tiLen ys).getD i []) is
        = List.map (fun _ => ys) is := by
      apply List.map_congr_left
      intro i hi
      have him := hb2 i hi
      rw [List.getD_eq_getElem _ _ (by simpa using him)]
      simp
    simp only [temporalRepeat, hr, rowSel, gatherRows]
    rw [key]

theorem repeated_values_policy_witness :
    getDsWithRepeatedValues ⟨4, 2, false⟩ ⟨4, fun i => (i : ℚ), none, Dtype.int16, []⟩
        "v" (Ax.ixSlice none none none) (Ax.ixSlice none none none)
      = (spatialRepeat ⟨4, 2, false⟩ ⟨4, fun i => (i : ℚ), none, Dtype.int16, []⟩
          (Ax.ixSlice none none none) (Ax.ixSlice none none none)).map
          (fun o => (true, o)) :=
  (repeated_values_policy ⟨4, 2, false⟩ ⟨4, fun i => (i : ℚ), none, Dtype.int16, []⟩
    "v" (Ax.ixSlice none none none) (Ax.ixSlice none none none) (by decide)).1 rfl

theorem trueIdx_lt {bs : List Bool} {i : Nat} (hi : i ∈ trueIdx bs) :
    i < bs.length := by
  have h2 := List.mem_filter.mp hi
  exact List.mem_range.mp h2.1

theorem maskSplitCond_false {c : Nat} (hc : 1 ≤ c) (bs : List Bool) :
    maskSplitCond c bs = false := by
  simp only [maskSplitCond, List.any_eq_false]
  intro p hp
  cases h1 : p.1 != p.2
  · simp [h1]
  · simp [h1]
    omega

/-- C8 counterexample: the mask is not normalized before the list-length
check.  A length-5 mask with three True entries alongside a length-3 index
list is rejected by `_check_slice` with a shape mismatch naming 5 and 3,
whereas the same request with the mask replaced by the index list of its
True positions (length 3) is accepted and returns data — so the operation
does not behave as if the caller had passed that index list. -/
theorem mask_prenormalization_counterexample :
    trueIdx [true, false, true, false, true] = [0, 2, 4]
    ∧ checkSlice [Ax.ixMask [true, false, true, false, true], Ax.ixList [0, 1, 2]]
        = Except.error (RexErr.indexError [5, 3])
    ∧ checkSlice [Ax.ixList [0, 2, 4], Ax.ixList [0, 1, 2]]
        = Except.ok (some 3, true)
    ∧ getDsSlice2 ⟨⟨6, 6, fun i j => ((10 * i + j : Nat) : ℚ), none⟩, Dtype.int32, 1, 0, false⟩
        (Ax.ixMask [true, false, true, false, true]) (Ax.ixList [0, 1, 2])
        = Except.error (RexErr.indexError [5, 3])
    ∧ getDsSlice2 ⟨⟨6, 6, fun i j => ((10 * i + j : Nat) : ℚ), none⟩, Dtype.int32, 1, 0, false⟩
        (Ax.ixList [0, 2, 4]) (Ax.ixList [0, 1, 2])
        = Except.ok ⟨ND.nd1 [((0 : Nat) : ℚ), ((21 : Nat) : ℚ), ((42 : Nat) : ℚ)],
            Dtype.int32⟩ :=
  ⟨by decide, by decide, by decide, by decide, by decide⟩

/-- C8 (amended): a boolean mask axis entry is normalized to the index list
of its True positions at physical-read time, inside `_list_to_slice`, so a
request whose only list-like entry is the mask returns exactly the data of
the corresponding index-list request (for the positive chunk extents h5py
produces); but the equal-length check of `_check_slice` sees the mask's raw
length, not its True count, and the chunk-split optimization never fires on
a mask. -/
theorem mask_normalized_at_read (ds : RDataset) (bs : List Bool)
    (hcpos : ∀ c, ds.core.chunks = some c → 1 ≤ c)
    (hlen : bs.length ≤ ds.core.n) :
    extractDsSlice1 ds.core (Ax.ixMask bs)
      = extractDsSlice1 ds.core (Ax.ixList (trueIdx bs))
    ∧ getDsSlice1 ds (Ax.ixMask bs) = getDsSlice1 ds (Ax.ixList (trueIdx bs)) := by
  have hext : extractDsSlice1 ds.core (Ax.ixMask bs)
      = extractDsSlice1 ds.core (Ax.ixList (trueIdx bs)) := rfl
  refine ⟨hext, ?_⟩
  have hb : ∀ i ∈ trueIdx bs, i < ds.core.n :=
    fun i hi => lt_of_lt_of_le (trueIdx_lt hi) hlen
  have hlist : extractListSlice1 ds.core (Ax.ixMask bs)
      = extractListSlice1 ds.core (Ax.ixList (trueIdx bs)) := by
    cases hch : ds.core.chunks with
    | none => simp [extractListSlice1, hch, hext]
    | some c =>
      have hc1 := hcpos c hch
      have hmask : extractListSlice1 ds.core (Ax.ixMask bs)
          = extractDsSlice1 ds.core (Ax.ixMask bs) := by
        simp only [extractListSlice1, hch, maskSplitCond_false hc1 bs]
        simp
      rw [hmask, hext]
      by_cases hsp : splitNeeded c (gatherN (trueIdx bs) (argsort (trueIdx bs))) = true
      · have hne2 : trueIdx bs ≠ [] := by
          intro he
          rw [he] at hsp
          simp [splitNeeded, gatherN, argsort, argsortList] at hsp
        rw [extractDsSlice1_list ds.core (trueIdx bs) hne2 hb,
          extractListSlice1_list ds.core c (trueIdx bs) hch hne2 hb]
      · simp only [extractListSlice1, hch]
        rw [if_neg hsp]
  simp only [getDsSlice1, checkSlice_single_mask, checkSlice_single_list]
  rw [hlist]

theorem mask_normalized_at_read_witness :
    getDsSlice1 ⟨⟨4, fun i => (i + 7 : ℚ), some 2⟩, Dtype.int16, 1, 0, false⟩
        (Ax.ixMask [true, false, true, true])
      = getDsSlice1 ⟨⟨4, fun i => (i + 7 : ℚ), some 2⟩, Dtype.int16, 1, 0, false⟩
        (Ax.ixList (trueIdx [true, false, true, true])) :=
  (mask_normalized_at_read ⟨⟨4, fun i => (i + 7 : ℚ), some 2⟩, Dtype.int16, 1, 0, false⟩
    [true, false, true, true]
    (fun c hc => by injection hc with h2; omega) (by decide)).2


end Rex
